import Mathlib

/-!
Shallow embedding of the `byte_chunk` library (`src/lib.rs`): a greedy
byte-budgeted chunking iterator over a slice of sized elements.

Modelling choices:
* A Rust slice `&[T]` is a `List α`; `split_at` is `List.take` / `List.drop`.
* The trait `SizeInBytes` is a type class with one operation `bytes_size`.
  The `String` (and `&str`) impl converts the string to `Bytes` and takes its
  length, i.e. the UTF-8 byte length, so the Lean instance is
  `String.utf8ByteSize`.  A `Nat` instance where an element *is* its byte size
  serves as the generic test model.
* `ByteChunks` is the iterator struct `{ v, chunk_byte_size }`.
* `next_split_index`'s `loop` becomes the structural recursion
  `nextSplitIndexAux` over the remaining part of `v`, threading the two
  mutable locals `byte_count` and `index`; the `panic!` is `Option.none`.
* `Iterator::next` returns a `NextResult` (chunk / end-of-sequence `nothing` /
  `panics`) together with the updated iterator state; the Rust panic aborts,
  so the state paired with `panics` is arbitrary (we keep it unchanged).
* Running the iterator to exhaustion is `runChunks` with fuel; fuel
  `v.length` always suffices because every emitted chunk is non-empty, and
  `chunksOf` uses exactly that.  `runChunks` yields `Option.none` iff the
  panic branch was hit (given enough fuel).
* `byte_chunks` / `byte_chunks_safe_mut` are the adapters; `Vec::retain` is
  `List.filter`.
-/

namespace ByteChunk

/-- The `SizeInBytes` trait: `fn bytes_size(&self) -> usize`. -/
class SizeInBytes (α : Type) where
  bytes_size : α → Nat

export SizeInBytes (bytes_size)

/-- `impl SizeInBytes for String` (and `&str`): the byte length of the
string's UTF-8 encoding, via `Bytes::from(...).len()`. -/
instance : SizeInBytes String :=
  ⟨String.utf8ByteSize⟩

/-- Test model: an element that is identified with its own byte size. -/
instance : SizeInBytes Nat :=
  ⟨fun n => n⟩

/-- The iterator struct `ByteChunks { v, chunk_byte_size }`. -/
structure ByteChunks (α : Type) where
  v : List α
  chunk_byte_size : Nat
deriving DecidableEq, Repr

/-- `ByteChunks::new(slice, size)`. -/
def ByteChunks.new (slice : List α) (size : Nat) : ByteChunks α :=
  { v := slice, chunk_byte_size := size }

/-- The `loop` body of `next_split_index`, with the mutable locals
`byte_count` and `index` threaded as arguments.  `Option.none` is the
`panic!("Chunk is larger than {} bytes")` branch. -/
def nextSplitIndexAux [SizeInBytes α] (chunk_byte_size : Nat) :
    List α → Nat → Nat → Option Nat
  | [], _byte_count, index => some index
  | d :: rest, byte_count, index =>
    if bytes_size d > chunk_byte_size then
      Option.none
    else if byte_count + bytes_size d > chunk_byte_size then
      some index
    else
      nextSplitIndexAux chunk_byte_size rest (byte_count + bytes_size d) (index + 1)

/-- `ByteChunks::next_split_index`: scan `v` from the start with
`byte_count = 0`, `index = 0`. -/
def ByteChunks.next_split_index [SizeInBytes α] (it : ByteChunks α) : Option Nat :=
  nextSplitIndexAux it.chunk_byte_size it.v 0 0

/-- Outcome of one `next()` call: a produced chunk, the end-of-sequence
sentinel (`None` in Rust), or the element-too-large panic. -/
inductive NextResult (α : Type) where
  | chunk (c : List α)
  | nothing
  | panics
deriving DecidableEq, Repr

/-- `Iterator::next` for `ByteChunks`: empty view yields the sentinel;
otherwise split the view at `next_split_index`, emit the prefix and keep the
suffix.  The panic branch leaves the state untouched (the Rust program
aborts there, so that state is never observed). -/
def ByteChunks.next [SizeInBytes α] (it : ByteChunks α) :
    NextResult α × ByteChunks α :=
  if it.v.isEmpty then
    (NextResult.nothing, it)
  else
    match it.next_split_index with
    | Option.none => (NextResult.panics, it)
    | some chunksz =>
      (NextResult.chunk (it.v.take chunksz),
       { v := it.v.drop chunksz, chunk_byte_size := it.chunk_byte_size })

/-- Drive the iterator to exhaustion, collecting the emitted chunks in
emission order; `Option.none` records that the panic branch was hit.
`fuel` bounds the number of `next` calls; `it.v.length` always suffices. -/
def runChunks [SizeInBytes α] : Nat → ByteChunks α → Option (List (List α))
  | 0, it => if it.v.isEmpty then some [] else Option.none
  | fuel + 1, it =>
    match it.next with
    | (NextResult.nothing, _) => some []
    | (NextResult.chunk c, it2) => (runChunks fuel it2).map (fun cs => c :: cs)
    | (NextResult.panics, _) => Option.none

/-- `byte_chunks(self, chunk_byte_size)`: the non-mutating adapter. -/
def byte_chunks (v : List α) (chunk_byte_size : Nat) : ByteChunks α :=
  ByteChunks.new v chunk_byte_size

/-- `byte_chunks_safe_mut(self, chunk_byte_size)`: `retain` the elements
whose size fits the budget, then build the iterator over the survivors. -/
def byte_chunks_safe_mut [SizeInBytes α] (v : List α) (chunk_byte_size : Nat) :
    ByteChunks α :=
  ByteChunks.new (v.filter (fun x => bytes_size x ≤ chunk_byte_size)) chunk_byte_size

/-- The full chunk sequence produced by iterating `it` to exhaustion. -/
def ByteChunks.toChunks [SizeInBytes α] (it : ByteChunks α) : Option (List (List α)) :=
  runChunks it.v.length it

/-- All chunks of `v` under budget `chunk_byte_size`. -/
def chunksOf [SizeInBytes α] (v : List α) (chunk_byte_size : Nat) :
    Option (List (List α)) :=
  (byte_chunks v chunk_byte_size).toChunks

end ByteChunk

namespace ByteChunk

/-! ### Properties of the scan `next_split_index` -/

/-- The scan's resulting index never goes below the index it started from. -/
theorem nextSplitIndexAux_le [SizeInBytes α] (b : Nat) (l : List α) :
    ∀ c i j : Nat, nextSplitIndexAux b l c i = some j → i ≤ j := by
  induction l with
  | nil =>
    intro c i j h
    simp [nextSplitIndexAux] at h
    omega
  | cons d rest ih =>
    intro c i j h
    simp only [nextSplitIndexAux] at h
    split at h
    · simp at h
    · split at h
      · simp at h
        omega
      · have := ih (c + bytes_size d) (i + 1) j h
        omega

/-- When every element fits the budget on its own, the scan cannot hit the
panic branch. -/
theorem nextSplitIndexAux_isSome [SizeInBytes α] (b : Nat) (l : List α) :
    ∀ c i : Nat, (∀ x ∈ l, bytes_size x ≤ b) →
      ∃ j, nextSplitIndexAux b l c i = some j := by
  induction l with
  | nil =>
    intro c i _
    exact ⟨i, rfl⟩
  | cons d rest ih =>
    intro c i hall
    have hd : bytes_size d ≤ b := hall d (by simp)
    by_cases hcb : c + bytes_size d > b
    · refine ⟨i, ?_⟩
      simp only [nextSplitIndexAux]
      rw [if_neg (by omega), if_pos hcb]
    · obtain ⟨j, hj⟩ := ih (c + bytes_size d) (i + 1)
        (fun x hx => hall x (by simp [hx]))
      refine ⟨j, ?_⟩
      simp only [nextSplitIndexAux]
      rw [if_neg (by omega), if_neg hcb]
      exact hj

/-- The running byte total stays within the budget: the scanned prefix,
together with the byte count accumulated before the scan, fits. -/
theorem nextSplitIndexAux_budget [SizeInBytes α] (b : Nat) (l : List α) :
    ∀ c i j : Nat, c ≤ b → nextSplitIndexAux b l c i = some j →
      c + ((l.take (j - i)).map bytes_size).sum ≤ b := by
  induction l with
  | nil =>
    intro c i j hc h
    simpa using hc
  | cons d rest ih =>
    intro c i j hc h
    simp only [nextSplitIndexAux] at h
    split at h
    · simp at h
    · split at h
      · simp at h
        subst h
        simpa [Nat.sub_self] using hc
      · rename_i h2
        have hle := nextSplitIndexAux_le b rest (c + bytes_size d) (i + 1) j h
        have ih' := ih (c + bytes_size d) (i + 1) j (by omega) h
        have hji : j - i = (j - (i + 1)) + 1 := by omega
        rw [hji, List.take_succ_cons, List.map_cons, List.sum_cons]
        omega

/-- Greedy maximality of one scan: if the scan stops strictly inside the
view, the first element beyond the boundary does not fit. -/
theorem nextSplitIndexAux_max [SizeInBytes α] (b : Nat) (l : List α) :
    ∀ c i j : Nat, ∀ (x : α) (xs : List α),
      nextSplitIndexAux b l c i = some j → l.drop (j - i) = x :: xs →
      b < c + ((l.take (j - i)).map bytes_size).sum + bytes_size x := by
  induction l with
  | nil =>
    intro c i j x xs _ hd
    simp at hd
  | cons d rest ih =>
    intro c i j x xs h hd
    simp only [nextSplitIndexAux] at h
    split at h
    · simp at h
    · split at h
      · rename_i h2
        simp at h
        subst h
        rw [Nat.sub_self] at hd ⊢
        simp only [List.drop_zero] at hd
        rw [List.cons.injEq] at hd
        obtain ⟨rfl, _⟩ := hd
        simpa using h2
      · have hle := nextSplitIndexAux_le b rest (c + bytes_size d) (i + 1) j h
        have hji : j - i = (j - (i + 1)) + 1 := by omega
        rw [hji] at hd ⊢
        rw [List.drop_succ_cons] at hd
        have ih' := ih (c + bytes_size d) (i + 1) j x xs h hd
        rw [List.take_succ_cons, List.map_cons, List.sum_cons]
        omega

/-- A scan over a non-empty view that does not panic takes at least one
element. -/
theorem next_split_index_pos [SizeInBytes α] (b : Nat) (d : α) (rest : List α)
    (j : Nat) (h : nextSplitIndexAux b (d :: rest) 0 0 = some j) : 1 ≤ j := by
  simp only [nextSplitIndexAux] at h
  split at h
  · simp at h
  · split at h
    · rename_i h1 h2
      omega
    · exact nextSplitIndexAux_le b rest (0 + bytes_size d) (0 + 1) j h

end ByteChunk

namespace ByteChunk

/-! ### Unfolding equations for `next` and `runChunks` -/

/-- One `next` step on a non-empty view, as a case split on the scan. -/
theorem ByteChunks.next_cons [SizeInBytes α] (bsz : Nat) (d : α) (rest : List α) :
    (ByteChunks.mk (d :: rest) bsz).next =
      match nextSplitIndexAux bsz (d :: rest) 0 0 with
      | Option.none => (NextResult.panics, ByteChunks.mk (d :: rest) bsz)
      | some i =>
        (NextResult.chunk ((d :: rest).take i),
         ByteChunks.mk ((d :: rest).drop i) bsz) :=
  rfl

/-- `runChunks` on positive fuel is one `next` step plus a recursive run. -/
theorem runChunks_succ [SizeInBytes α] (fuel : Nat) (it : ByteChunks α) :
    runChunks (fuel + 1) it =
      match it.next with
      | (NextResult.nothing, _) => some []
      | (NextResult.chunk c, it2) => (runChunks fuel it2).map (fun cs => c :: cs)
      | (NextResult.panics, _) => Option.none :=
  rfl

/-- `runChunks` on an exhausted iterator emits no further chunks. -/
theorem runChunks_succ_nil [SizeInBytes α] (fuel bsz : Nat) :
    runChunks (fuel + 1) (ByteChunks.mk ([] : List α) bsz) = some [] :=
  rfl

/-- A panicking scan aborts the whole run. -/
theorem runChunks_succ_cons_panic [SizeInBytes α] (fuel bsz : Nat) (d : α)
    (rest : List α) (hs : nextSplitIndexAux bsz (d :: rest) 0 0 = Option.none) :
    runChunks (fuel + 1) (ByteChunks.mk (d :: rest) bsz) = Option.none := by
  rw [runChunks_succ, ByteChunks.next_cons, hs]

/-- A successful scan emits the prefix chunk and runs on with the suffix. -/
theorem runChunks_succ_cons_chunk [SizeInBytes α] (fuel bsz : Nat) (d : α)
    (rest : List α) (i : Nat)
    (hs : nextSplitIndexAux bsz (d :: rest) 0 0 = some i) :
    runChunks (fuel + 1) (ByteChunks.mk (d :: rest) bsz) =
      (runChunks fuel (ByteChunks.mk ((d :: rest).drop i) bsz)).map
        (fun cs => (d :: rest).take i :: cs) := by
  rw [runChunks_succ, ByteChunks.next_cons, hs]

end ByteChunk

namespace ByteChunk

/-! ### Properties of a full iterator run -/

/-- Partition invariant: whenever a run completes without panicking, the
emitted chunks concatenate, in emission order, to the original view. -/
theorem runChunks_flatten [SizeInBytes α] (b : Nat) :
    ∀ (fuel : Nat) (v : List α) (cs : List (List α)),
      runChunks fuel (ByteChunks.mk v b) = some cs → cs.flatten = v := by
  intro fuel
  induction fuel with
  | zero =>
    intro v cs h
    cases v with
    | nil =>
      simp [runChunks] at h
      subst h
      rfl
    | cons d rest =>
      simp [runChunks] at h
  | succ fuel ih =>
    intro v cs h
    cases v with
    | nil =>
      rw [runChunks_succ_nil] at h
      simp at h
      subst h
      rfl
    | cons d rest =>
      cases hs : nextSplitIndexAux b (d :: rest) 0 0 with
      | none =>
        rw [runChunks_succ_cons_panic fuel b d rest hs] at h
        simp at h
      | some i =>
        rw [runChunks_succ_cons_chunk fuel b d rest i hs] at h
        cases hr : runChunks fuel (ByteChunks.mk ((d :: rest).drop i) b) with
        | none =>
          rw [hr] at h
          simp at h
        | some cs' =>
          rw [hr] at h
          simp only [Option.map_some', Option.some.injEq] at h
          subst h
          have hrec := ih ((d :: rest).drop i) cs' hr
          simp only [List.flatten_cons, hrec, List.take_append_drop]

/-- With enough fuel, a run over a view whose elements all fit the budget
completes without panicking. -/
theorem runChunks_isSome [SizeInBytes α] (b : Nat) :
    ∀ (fuel : Nat) (v : List α), v.length ≤ fuel →
      (∀ x ∈ v, bytes_size x ≤ b) →
      ∃ cs, runChunks fuel (ByteChunks.mk v b) = some cs := by
  intro fuel
  induction fuel with
  | zero =>
    intro v hlen _
    have hv : v = [] := List.eq_nil_of_length_eq_zero (Nat.le_zero.mp hlen)
    subst hv
    exact ⟨[], rfl⟩
  | succ fuel ih =>
    intro v hlen hall
    cases v with
    | nil => exact ⟨[], rfl⟩
    | cons d rest =>
      obtain ⟨i, hi⟩ := nextSplitIndexAux_isSome b (d :: rest) 0 0 hall
      have hpos : 1 ≤ i := next_split_index_pos b d rest i hi
      have hlen2 : ((d :: rest).drop i).length ≤ fuel := by
        rw [List.length_drop]
        simp only [List.length_cons] at hlen ⊢
        omega
      obtain ⟨cs', hcs'⟩ := ih ((d :: rest).drop i) hlen2
        (fun x hx => hall x (List.mem_of_mem_drop hx))
      refine ⟨(d :: rest).take i :: cs', ?_⟩
      rw [runChunks_succ_cons_chunk fuel b d rest i hi, hcs']
      rfl

/-- Budget invariant: every chunk a completed run emitted fits the budget. -/
theorem runChunks_budget [SizeInBytes α] (b : Nat) :
    ∀ (fuel : Nat) (v : List α) (cs : List (List α)),
      runChunks fuel (ByteChunks.mk v b) = some cs →
      ∀ ch ∈ cs, (ch.map bytes_size).sum ≤ b := by
  intro fuel
  induction fuel with
  | zero =>
    intro v cs h
    cases v with
    | nil =>
      simp [runChunks] at h
      subst h
      simp
    | cons d rest => simp [runChunks] at h
  | succ fuel ih =>
    intro v cs h
    cases v with
    | nil =>
      rw [runChunks_succ_nil] at h
      simp at h
      subst h
      simp
    | cons d rest =>
      cases hs : nextSplitIndexAux b (d :: rest) 0 0 with
      | none =>
        rw [runChunks_succ_cons_panic fuel b d rest hs] at h
        simp at h
      | some i =>
        rw [runChunks_succ_cons_chunk fuel b d rest i hs] at h
        cases hr : runChunks fuel (ByteChunks.mk ((d :: rest).drop i) b) with
        | none =>
          rw [hr] at h
          simp at h
        | some cs' =>
          rw [hr] at h
          simp only [Option.map_some', Option.some.injEq] at h
          subst h
          intro ch hch
          rcases List.mem_cons.mp hch with hch | hch
          · subst hch
            have hb := nextSplitIndexAux_budget b (d :: rest) 0 0 i
              (Nat.zero_le b) hs
            simpa using hb
          · exact ih ((d :: rest).drop i) cs' hr ch hch

/-- Every chunk a completed run emitted is non-empty. -/
theorem runChunks_ne_nil [SizeInBytes α] (b : Nat) :
    ∀ (fuel : Nat) (v : List α) (cs : List (List α)),
      runChunks fuel (ByteChunks.mk v b) = some cs →
      ∀ ch ∈ cs, ch ≠ [] := by
  intro fuel
  induction fuel with
  | zero =>
    intro v cs h
    cases v with
    | nil =>
      simp [runChunks] at h
      subst h
      simp
    | cons d rest => simp [runChunks] at h
  | succ fuel ih =>
    intro v cs h
    cases v with
    | nil =>
      rw [runChunks_succ_nil] at h
      simp at h
      subst h
      simp
    | cons d rest =>
      cases hs : nextSplitIndexAux b (d :: rest) 0 0 with
      | none =>
        rw [runChunks_succ_cons_panic fuel b d rest hs] at h
        simp at h
      | some i =>
        rw [runChunks_succ_cons_chunk fuel b d rest i hs] at h
        cases hr : runChunks fuel (ByteChunks.mk ((d :: rest).drop i) b) with
        | none =>
          rw [hr] at h
          simp at h
        | some cs' =>
          rw [hr] at h
          simp only [Option.map_some', Option.some.injEq] at h
          subst h
          intro ch hch
          rcases List.mem_cons.mp hch with hch | hch
          · subst hch
            have hpos : 1 ≤ i := next_split_index_pos b d rest i hs
            obtain ⟨k, rfl⟩ : ∃ k, i = k + 1 := ⟨i - 1, by omega⟩
            simp [List.take_succ_cons]
          · exact ih ((d :: rest).drop i) cs' hr ch hch

end ByteChunk

namespace ByteChunk

/-- Greedy maximality over a whole run: no emitted chunk could absorb the
first element of the view that remained after it. -/
theorem runChunks_max [SizeInBytes α] (b : Nat) :
    ∀ (fuel : Nat) (v : List α) (cs : List (List α)),
      runChunks fuel (ByteChunks.mk v b) = some cs →
      ∀ (k : Nat) (hk : k < cs.length) (x : α) (xs : List α),
        (cs.drop (k + 1)).flatten = x :: xs →
        b < ((cs.get ⟨k, hk⟩).map bytes_size).sum + bytes_size x := by
  intro fuel
  induction fuel with
  | zero =>
    intro v cs h k hk x xs hx
    cases v with
    | nil =>
      simp [runChunks] at h
      subst h
      simp at hk
    | cons d rest => simp [runChunks] at h
  | succ fuel ih =>
    intro v cs h k hk x xs hx
    cases v with
    | nil =>
      rw [runChunks_succ_nil] at h
      simp at h
      subst h
      simp at hk
    | cons d rest =>
      cases hs : nextSplitIndexAux b (d :: rest) 0 0 with
      | none =>
        rw [runChunks_succ_cons_panic fuel b d rest hs] at h
        simp at h
      | some i =>
        rw [runChunks_succ_cons_chunk fuel b d rest i hs] at h
        cases hr : runChunks fuel (ByteChunks.mk ((d :: rest).drop i) b) with
        | none =>
          rw [hr] at h
          simp at h
        | some cs' =>
          rw [hr] at h
          simp only [Option.map_some', Option.some.injEq] at h
          subst h
          cases k with
          | zero =>
            have hflat : cs'.flatten = (d :: rest).drop i :=
              runChunks_flatten b fuel ((d :: rest).drop i) cs' hr
            simp only [List.drop_succ_cons, List.drop_zero] at hx
            rw [hflat] at hx
            have hm := nextSplitIndexAux_max b (d :: rest) 0 0 i x xs hs
              (by simpa using hx)
            simpa using hm
          | succ k =>
            simp only [List.drop_succ_cons] at hx
            have hk' : k < cs'.length := by
              simp only [List.length_cons] at hk
              omega
            have := ih ((d :: rest).drop i) cs' hr k hk' x xs hx
            simpa using this

/-- A concatenation of non-empty lists is at least as long as their count. -/
theorem length_le_length_flatten (cs : List (List α))
    (h : ∀ ch ∈ cs, ch ≠ []) : cs.length ≤ cs.flatten.length := by
  induction cs with
  | nil => simp
  | cons c cs ih =>
    simp only [List.flatten_cons, List.length_append, List.length_cons]
    have hc : c ≠ [] := h c (by simp)
    have h1 : 1 ≤ c.length := List.length_pos.mpr hc
    have h2 := ih (fun ch hch => h ch (by simp [hch]))
    omega

end ByteChunk

namespace ByteChunk

/-- A non-panicking `next` on a non-empty view emits the scanned prefix and
keeps the suffix. -/
theorem ByteChunks.next_eq_chunk [SizeInBytes α] (it : ByteChunks α) (i : Nat)
    (hv : it.v ≠ []) (h : it.next_split_index = some i) :
    it.next = (NextResult.chunk (it.v.take i),
      ByteChunks.mk (it.v.drop i) it.chunk_byte_size) := by
  obtain ⟨v, bsz⟩ := it
  simp only [ByteChunks.next_split_index] at h
  cases v with
  | nil => exact absurd rfl hv
  | cons d rest => rw [ByteChunks.next_cons, h]

end ByteChunk

namespace ByteChunk

/-! ### The claims -/

/-- Claim C1: for every sequence and every budget such that no element's
byte size exceeds the budget, the iterator completes and the emitted
chunks, concatenated in emission order, reproduce the original sequence
exactly — same elements, same order, none dropped or duplicated. -/
theorem C1_partition (α : Type) [SizeInBytes α] (chunk_byte_size : Nat)
    (v : List α) (hfit : ∀ x ∈ v, bytes_size x ≤ chunk_byte_size) :
    ∃ cs, chunksOf v chunk_byte_size = some cs ∧ cs.flatten = v := by
  obtain ⟨cs, hcs⟩ :=
    runChunks_isSome chunk_byte_size v.length v le_rfl hfit
  exact ⟨cs, hcs, runChunks_flatten chunk_byte_size v.length v cs hcs⟩

/-- Witness for C1 at sizes `[3, 4, 2]`, budget 5. -/
theorem C1_partition_witness :
    chunksOf [(3 : Nat), 4, 2] 5 = some [[3], [4], [2]] ∧
      ([[3], [4], [2]] : List (List Nat)).flatten = [3, 4, 2] := by
  obtain ⟨cs, h1, h2⟩ := C1_partition Nat 5 [3, 4, 2] (by decide)
  have he : chunksOf [(3 : Nat), 4, 2] 5 = some [[3], [4], [2]] := by decide
  rw [he] at h1
  cases Option.some.inj h1
  exact ⟨he, h2⟩

/-- Claim C2: for every sequence and every budget such that no element's
byte size exceeds the budget, the iterator completes and every emitted
chunk's total byte size is at most the budget. -/
theorem C2_budget (α : Type) [SizeInBytes α] (chunk_byte_size : Nat)
    (v : List α) (hfit : ∀ x ∈ v, bytes_size x ≤ chunk_byte_size) :
    ∃ cs, chunksOf v chunk_byte_size = some cs ∧
      ∀ ch ∈ cs, (ch.map bytes_size).sum ≤ chunk_byte_size := by
  obtain ⟨cs, hcs⟩ :=
    runChunks_isSome chunk_byte_size v.length v le_rfl hfit
  exact ⟨cs, hcs, runChunks_budget chunk_byte_size v.length v cs hcs⟩

/-- Witness for C2 at sizes `[4, 4, 1, 2]`, budget 6. -/
theorem C2_budget_witness :
    chunksOf [(4 : Nat), 4, 1, 2] 6 = some [[4], [4, 1], [2]] ∧
      ((([4, 1] : List Nat).map bytes_size).sum ≤ 6) := by
  obtain ⟨cs, h1, h2⟩ := C2_budget Nat 6 [4, 4, 1, 2] (by decide)
  have he : chunksOf [(4 : Nat), 4, 1, 2] 6 = some [[4], [4, 1], [2]] := by
    decide
  rw [he] at h1
  cases Option.some.inj h1
  exact ⟨he, h2 [4, 1] (by simp)⟩

/-- Claim C6: advancing an iterator over an empty source returns the
end-of-sequence sentinel on the very first call, with no fault, for every
budget; a full run emits no chunks. -/
theorem C6_empty (α : Type) [SizeInBytes α] (chunk_byte_size : Nat) :
    (byte_chunks ([] : List α) chunk_byte_size).next =
        (NextResult.nothing, byte_chunks ([] : List α) chunk_byte_size) ∧
      chunksOf ([] : List α) chunk_byte_size = some [] :=
  ⟨rfl, rfl⟩

/-- Claim C7: the filtering adapter is idempotent — applying it twice
leaves the same surviving elements as applying it once, and the chunk
sequences of the two resulting iterators are identical. -/
theorem C7_filter_idempotent (α : Type) [SizeInBytes α]
    (chunk_byte_size : Nat) (v : List α) :
    byte_chunks_safe_mut (byte_chunks_safe_mut v chunk_byte_size).v
        chunk_byte_size = byte_chunks_safe_mut v chunk_byte_size ∧
      (byte_chunks_safe_mut (byte_chunks_safe_mut v chunk_byte_size).v
          chunk_byte_size).toChunks =
        (byte_chunks_safe_mut v chunk_byte_size).toChunks := by
  have h : (byte_chunks_safe_mut v chunk_byte_size).v.filter
      (fun x => bytes_size x ≤ chunk_byte_size) =
      (byte_chunks_safe_mut v chunk_byte_size).v :=
    List.filter_eq_self.mpr (fun a ha => (List.mem_filter.mp ha).2)
  have h1 : byte_chunks_safe_mut (byte_chunks_safe_mut v chunk_byte_size).v
      chunk_byte_size = byte_chunks_safe_mut v chunk_byte_size := by
    simp only [byte_chunks_safe_mut, ByteChunks.new] at h ⊢
    rw [h]
  exact ⟨h1, by rw [h1]⟩

end ByteChunk

namespace ByteChunk

/-- Counterexample to claim C3: with budget 5 and element sizes `[1, 6]`,
the scan has already accepted the first element (running byte total 1 > 0)
when it meets the oversized second element, yet the advance takes the
fatal panic branch instead of stopping the scan and emitting the prefix
chunk `[1]` that the claim prescribes. -/
theorem C3_counterexample :
    (byte_chunks [(1 : Nat), 6] 5).next =
        (NextResult.panics, byte_chunks [(1 : Nat), 6] 5) ∧
      (NextResult.panics, byte_chunks [(1 : Nat), 6] 5) ≠
        (NextResult.chunk [(1 : Nat)], byte_chunks [(6 : Nat)] 5) := by
  exact ⟨by decide, by decide⟩

/-- Claim C3 as amended: the fatal element-too-large condition is signaled
whenever the scan meets a candidate whose size alone exceeds the budget,
regardless of the running byte total; a candidate that fits on its own but
whose addition would exceed the budget merely stops the scan, is excluded,
and the prefix scanned so far is emitted as a chunk. -/
theorem C3_amended (α : Type) [SizeInBytes α] (chunk_byte_size : Nat) :
    (∀ (d : α) (rest : List α) (byte_count index : Nat),
        chunk_byte_size < bytes_size d →
        nextSplitIndexAux chunk_byte_size (d :: rest) byte_count index =
          Option.none) ∧
      (∀ (d : α) (rest : List α) (byte_count index : Nat),
        bytes_size d ≤ chunk_byte_size →
        chunk_byte_size < byte_count + bytes_size d →
        nextSplitIndexAux chunk_byte_size (d :: rest) byte_count index =
          some index) ∧
      (∀ (it : ByteChunks α) (i : Nat), it.v ≠ [] →
        it.next_split_index = some i →
        it.next = (NextResult.chunk (it.v.take i),
          ByteChunks.mk (it.v.drop i) it.chunk_byte_size)) := by
  refine ⟨?_, ?_, ?_⟩
  · intro d rest byte_count index hd
    simp only [nextSplitIndexAux]
    rw [if_pos hd]
  · intro d rest byte_count index hd hsum
    simp only [nextSplitIndexAux]
    rw [if_neg (by omega), if_pos hsum]
  · intro it i hv h
    exact ByteChunks.next_eq_chunk it i hv h

/-- Witness for the amended C3: a panic with positive running total, a
scan stopped by exclusion, and the emitted prefix chunk. -/
theorem C3_amended_witness :
    nextSplitIndexAux 5 [(7 : Nat), 2] 3 1 = Option.none ∧
      nextSplitIndexAux 5 [(3 : Nat), 2] 4 1 = some 1 ∧
      (byte_chunks [(2 : Nat), 2, 3] 5).next =
        (NextResult.chunk [2, 2], ByteChunks.mk [3] 5) :=
  ⟨(C3_amended Nat 5).1 7 [2] 3 1 (by decide),
   (C3_amended Nat 5).2.1 3 [2] 4 1 (by decide) (by decide),
   (C3_amended Nat 5).2.2 (byte_chunks [(2 : Nat), 2, 3] 5) 2 (by decide)
     (by decide)⟩

/-- Claim C4: under a budget no element exceeds, every emitted chunk is
maximal — the first element of the view remaining after it (when one
exists) would overflow the budget if appended; and the concrete scenario
`["Hello","There","Best","Worl","D","A"]` with budget 10 yields the chunks
`["Hello","There"]` and `["Best","Worl","D","A"]`, then the end-of-sequence
sentinel. -/
theorem C4_greedy_maximality :
    (∀ (α : Type) [SizeInBytes α] (chunk_byte_size : Nat) (v : List α),
        (∀ x ∈ v, bytes_size x ≤ chunk_byte_size) →
        ∀ cs, chunksOf v chunk_byte_size = some cs →
        ∀ (k : Nat) (hk : k < cs.length) (x : α) (xs : List α),
          (cs.drop (k + 1)).flatten = x :: xs →
          chunk_byte_size <
            ((cs.get ⟨k, hk⟩).map bytes_size).sum + bytes_size x) ∧
      chunksOf ["Hello", "There", "Best", "Worl", "D", "A"] 10 =
        some [["Hello", "There"], ["Best", "Worl", "D", "A"]] ∧
      (((byte_chunks ["Hello", "There", "Best", "Worl", "D", "A"] 10
          ).next.2).next.2).next =
        (NextResult.nothing, ByteChunks.mk ([] : List String) 10) := by
  refine ⟨?_, by decide, by decide⟩
  intro α _ chunk_byte_size v _ cs hcs k hk x xs hx
  exact runChunks_max chunk_byte_size v.length v cs hcs k hk x xs hx

/-- Witness for C4: with sizes `[3, 4, 2]` and budget 5 the first chunk is
`[3]` and the next remaining element, of size 4, would not have fit. -/
theorem C4_greedy_maximality_witness :
    (5 : Nat) < (([3] : List Nat).map bytes_size).sum + bytes_size (4 : Nat) :=
  C4_greedy_maximality.1 Nat 5 [3, 4, 2] (by decide) [[3], [4], [2]]
    (by decide) 0 (by decide) 4 [2] (by decide)

/-- Claim C5: the filtering adapter keeps an in-order sublist of the
container, its survivors are exactly the elements whose individual byte
size is within the budget (multiplicities included), and the iterator it
constructs can never reach the fatal element-too-large branch: its full
run completes. -/
theorem C5_safe_filter (α : Type) [SizeInBytes α] [DecidableEq α]
    (chunk_byte_size : Nat) (v : List α) :
    (byte_chunks_safe_mut v chunk_byte_size).v.Sublist v ∧
      (∀ x, x ∈ (byte_chunks_safe_mut v chunk_byte_size).v ↔
        x ∈ v ∧ bytes_size x ≤ chunk_byte_size) ∧
      (∀ x, bytes_size x ≤ chunk_byte_size →
        (byte_chunks_safe_mut v chunk_byte_size).v.count x = v.count x) ∧
      ∃ cs, (byte_chunks_safe_mut v chunk_byte_size).toChunks = some cs := by
  refine ⟨List.filter_sublist v, ?_, ?_, ?_⟩
  · intro x
    constructor
    · intro hx
      have := List.mem_filter.mp hx
      exact ⟨this.1, by simpa using this.2⟩
    · intro hx
      exact List.mem_filter.mpr ⟨hx.1, by simpa using hx.2⟩
  · intro x hx
    exact List.count_filter (by simpa using hx)
  · apply runChunks_isSome
    · exact le_rfl
    · intro x hx
      have := List.mem_filter.mp hx
      simpa using this.2

/-- Witness for C5 at sizes `[5, 2, 7]`, budget 5: the oversized 7 is
removed, survivors keep order and multiplicity, and the run completes. -/
theorem C5_safe_filter_witness :
    (byte_chunks_safe_mut [(5 : Nat), 2, 7] 5).v.Sublist [5, 2, 7] ∧
      ¬ (7 : Nat) ∈ (byte_chunks_safe_mut [(5 : Nat), 2, 7] 5).v ∧
      (byte_chunks_safe_mut [(5 : Nat), 2, 7] 5).v.count 2 =
        ([(5 : Nat), 2, 7]).count 2 ∧
      (byte_chunks_safe_mut [(5 : Nat), 2, 7] 5).toChunks =
        some [[5], [2]] := by
  obtain ⟨h1, h2, h3, cs, h4⟩ := C5_safe_filter Nat 5 [5, 2, 7]
  have he : (byte_chunks_safe_mut [(5 : Nat), 2, 7] 5).toChunks =
      some [[5], [2]] := by decide
  refine ⟨h1, ?_, h3 2 (by decide), he⟩
  intro hmem
  have := (h2 7).mp hmem
  have hb : bytes_size (7 : Nat) = 7 := rfl
  omega

end ByteChunk

namespace ByteChunk

/-- Counterexample to claim C8: with budget 5, a first candidate of size
exactly 5 followed by a zero-size element yields the two-element chunk
`[5, 0]`, not the single-element chunk the claim prescribes; and followed
by an oversized element (size 7) the advance raises the fatal condition
instead of emitting the element alone. -/
theorem C8_counterexample :
    ((byte_chunks [(5 : Nat), 0] 5).next =
        (NextResult.chunk [5, 0], ByteChunks.mk ([] : List Nat) 5) ∧
      NextResult.chunk [(5 : Nat), 0] ≠ NextResult.chunk [(5 : Nat)]) ∧
      (byte_chunks [(5 : Nat), 7] 5).next =
        (NextResult.panics, byte_chunks [(5 : Nat), 7] 5) := by
  exact ⟨⟨by decide, by decide⟩, by decide⟩

/-- Claim C8 as amended: when the first candidate's byte size exactly
equals the budget and every later element of the view has positive byte
size not exceeding the budget, the advance raises no fault and emits that
first candidate alone as a single-element chunk. -/
theorem C8_amended (α : Type) [SizeInBytes α] (chunk_byte_size : Nat)
    (d : α) (rest : List α) (hd : bytes_size d = chunk_byte_size)
    (hrest : ∀ x ∈ rest, 1 ≤ bytes_size x ∧ bytes_size x ≤ chunk_byte_size) :
    (byte_chunks (d :: rest) chunk_byte_size).next =
      (NextResult.chunk [d], ByteChunks.mk rest chunk_byte_size) := by
  have hsplit : (byte_chunks (d :: rest) chunk_byte_size).next_split_index =
      some 1 := by
    show nextSplitIndexAux chunk_byte_size (d :: rest) 0 0 = some 1
    simp only [nextSplitIndexAux]
    rw [if_neg (by omega), if_neg (by omega)]
    cases rest with
    | nil => rfl
    | cons e rest' =>
      have he := hrest e (by simp)
      simp only [nextSplitIndexAux]
      rw [if_neg (by omega), if_pos (by omega)]
  have h := ByteChunks.next_eq_chunk
    (byte_chunks (d :: rest) chunk_byte_size) 1 (by simp [byte_chunks, ByteChunks.new]) hsplit
  simpa [byte_chunks, ByteChunks.new] using h

/-- Witness for the amended C8: size 5 against budget 5, followed by an
element of size 3, is emitted alone. -/
theorem C8_amended_witness :
    (byte_chunks [(5 : Nat), 3] 5).next =
      (NextResult.chunk [5], ByteChunks.mk [3] 5) :=
  C8_amended Nat 5 5 [3] (by decide) (by decide)

/-- Claim C9: the size of a text element is the byte length of its UTF-8
encoding, not its character count; each of the five Japanese strings is 2
characters yet 6 bytes, and with budget 12 the iterator emits chunks of
2, 2 and 1 elements, then the end-of-sequence sentinel. -/
theorem C9_utf8_size :
    (∀ s : String, bytes_size s = s.toUTF8.size) ∧
      bytes_size ("ラウ" : String) = 6 ∧ ("ラウ" : String).length = 2 ∧
      bytes_size ("トは" : String) = 6 ∧ ("トは" : String).length = 2 ∧
      bytes_size ("難し" : String) = 6 ∧ ("難し" : String).length = 2 ∧
      bytes_size ("いで" : String) = 6 ∧ ("いで" : String).length = 2 ∧
      bytes_size ("す！" : String) = 6 ∧ ("す！" : String).length = 2 ∧
      chunksOf ["ラウ", "トは", "難し", "いで", "す！"] 12 =
        some [["ラウ", "トは"], ["難し", "いで"], ["す！"]] ∧
      (((byte_chunks ["ラウ", "トは", "難し", "いで", "す！"] 12
          ).next.2).next.2).next.2.next =
        (NextResult.nothing, ByteChunks.mk ([] : List String) 12) := by
  refine ⟨fun s => (String.size_toUTF8 s).symm, ?_⟩
  decide

/-- Claim C10: under a budget no element exceeds, a scan of a non-empty
view returns a split index of at least 1, so each advance emits a
non-empty chunk and strictly shrinks the view, and the whole run
terminates after at most `v.length` chunks. -/
theorem C10_progress (α : Type) [SizeInBytes α] (chunk_byte_size : Nat)
    (v : List α) (hfit : ∀ x ∈ v, bytes_size x ≤ chunk_byte_size) :
    (v ≠ [] → ∃ i,
        (byte_chunks v chunk_byte_size).next_split_index = some i ∧
        1 ≤ i ∧ (v.drop i).length < v.length) ∧
      ∃ cs, chunksOf v chunk_byte_size = some cs ∧
        cs.length ≤ v.length ∧ ∀ ch ∈ cs, ch ≠ [] := by
  constructor
  · intro hne
    cases v with
    | nil => exact absurd rfl hne
    | cons d rest =>
      obtain ⟨i, hi⟩ :=
        nextSplitIndexAux_isSome chunk_byte_size (d :: rest) 0 0 hfit
      have hpos := next_split_index_pos chunk_byte_size d rest i hi
      refine ⟨i, hi, hpos, ?_⟩
      rw [List.length_drop]
      simp only [List.length_cons]
      omega
  · obtain ⟨cs, hcs⟩ :=
      runChunks_isSome chunk_byte_size v.length v le_rfl hfit
    have hnil := runChunks_ne_nil chunk_byte_size v.length v cs hcs
    have hflat := runChunks_flatten chunk_byte_size v.length v cs hcs
    have hlen := length_le_length_flatten cs hnil
    rw [hflat] at hlen
    exact ⟨cs, hcs, hlen, hnil⟩

/-- Witness for C10 at sizes `[6, 1, 6]`, budget 6: first split index 1,
strictly shrinking view, three non-empty chunks from three elements. -/
theorem C10_progress_witness :
    (byte_chunks [(6 : Nat), 1, 6] 6).next_split_index = some 1 ∧
      ([(6 : Nat), 1, 6].drop 1).length < [(6 : Nat), 1, 6].length ∧
      chunksOf [(6 : Nat), 1, 6] 6 = some [[6], [1], [6]] ∧
      ([[6], [1], [6]] : List (List Nat)).length ≤
        [(6 : Nat), 1, 6].length := by
  obtain ⟨h1, h2⟩ := C10_progress Nat 6 [6, 1, 6] (by decide)
  obtain ⟨i, hi, hpos, hdrop⟩ := h1 (by decide)
  have hei : (byte_chunks [(6 : Nat), 1, 6] 6).next_split_index = some 1 := by
    decide
  rw [hei] at hi
  cases Option.some.inj hi
  obtain ⟨cs, hcs, hlen, _⟩ := h2
  have hec : chunksOf [(6 : Nat), 1, 6] 6 = some [[6], [1], [6]] := by decide
  rw [hec] at hcs
  cases Option.some.inj hcs
  exact ⟨hei, hdrop, hec, hlen⟩

end ByteChunk
